import Mathlib

/-!
Shallow embedding of the Ren'Py translation engine of this repository:
`RenpyFileParserService.extractLines` / `findLinesToFill` / `extractCommand`
(src/app/services/renpy-file-parser.service.ts) and
`TranslationProcessorService.replaceLines` (translation-processor service).

Lines are embedded as `List Char`; JavaScript string operations (`trim`,
`startsWith`, `endsWith`, `includes`, `split('\n')`, `join('\n')`) and the
four regular expressions of the source (`/^#\s*/`, `/^([^"]+)\s*"/`,
`/"(.*)"/`, `/old\s+"([^"]+)"/`) are implemented as executable char-list
functions.  The `while` loops of the source advance their index by at least
one per iteration; they are embedded as fuel-indexed structural recursions,
where the top-level entry points supply fuel equal to the number of lines
(which is always sufficient, as proved by the fuel-stability lemmas below).
-/

abbrev Line := List Char

/-- The whitespace class used by JavaScript `trim` / `\s` (restricted to the
ASCII whitespace that can occur in script lines). -/
def isSpc (c : Char) : Bool := c == ' ' || c == '\t' || c == '\n' || c == '\r'

/-- JavaScript `String.prototype.trim` on a line. -/
def trimL (l : Line) : Line := ((l.dropWhile isSpc).reverse.dropWhile isSpc).reverse

/-- `prefixL p l` : JavaScript `l.startsWith(p)`. -/
def prefixL : Line → Line → Bool
  | [], _ => true
  | _ :: _, [] => false
  | p :: ps, c :: cs => p == c && prefixL ps cs

/-- JavaScript `l.endsWith(p)`. -/
def suffixL (p l : Line) : Bool := prefixL p.reverse l.reverse

/-- JavaScript `l.includes(p)` (substring test). -/
def containsSub : Line → Line → Bool
  | p, [] => prefixL p []
  | p, c :: cs => prefixL p (c :: cs) || containsSub p cs

/-- The `replace(/^#\s*/, '')` step of `extractCommand`: strip one leading
`#` together with the whitespace that follows it. -/
def stripHash : Line → Line
  | [] => []
  | c :: rest => if c = '#' then rest.dropWhile isSpc else c :: rest

/-- `RenpyFileParserService.extractCommand`, char-list core.  Trims the
line, strips a leading `#` plus following whitespace, then returns the
(trimmed) text before the first double quote when the regex
`/^([^"]+)\s*"/` matches (a quote exists and is not the first character);
otherwise falls back to the first whitespace-delimited token
(`cleanedLine.split(/\s+/)[0]`). -/
def extractCommandL (line : Line) : Line :=
  let c := stripHash (trimL line)
  if c.contains '"' && c.head? != some '"' then trimL (c.takeWhile (· != '"'))
  else c.takeWhile (fun ch => !(isSpc ch))

/-- `RenpyFileParserService.extractCommand` at `String` type. -/
def extractCommand (line : String) : String := ⟨extractCommandL line.data⟩

/-- The regex `/"(.*)"/` of `extractAndAddTextToTranslate`: greedy capture
between the first and the last double quote of the line (empty when the
line has fewer than two quotes). -/
def extractQuoted (line : Line) : Line :=
  match line.dropWhile (· != '"') with
  | [] => []
  | _ :: rest => ((rest.reverse.dropWhile (· != '"')).drop 1).reverse

/-- Match of the regex `/old\s+"([^"]+)"/` anchored at the head of the
list: literal `old`, at least one whitespace, a quote, a non-empty run of
non-quote characters, a closing quote. -/
def oldMatchAt : Line → Option Line
  | 'o' :: 'l' :: 'd' :: rest =>
    if rest.takeWhile isSpc ≠ [] then
      match rest.dropWhile isSpc with
      | '"' :: body =>
        let t := body.takeWhile (· != '"')
        if t ≠ [] ∧ body.dropWhile (· != '"') ≠ [] then some t else none
      | _ => none
    else none
  | _ => none

/-- Search of the regex `/old\s+"([^"]+)"/` (first matching position). -/
def oldSearch : Line → Option Line
  | [] => none
  | c :: cs =>
    match oldMatchAt (c :: cs) with
    | some t => some t
    | none => oldSearch cs

/-- JavaScript `s.split('\n')` on the character list (always non-empty;
`[]` splits to `[[]]`, matching `''.split('\n') = ['']`). -/
def splitLinesL : List Char → List Line
  | [] => [[]]
  | c :: cs =>
    if c = '\n' then [] :: splitLinesL cs
    else
      match splitLinesL cs with
      | [] => [[c]]
      | h :: t => (c :: h) :: t

/-- JavaScript `lines.join('\n')`. -/
def joinLinesL : List Line → List Char
  | [] => []
  | [l] => l
  | l :: rest => l ++ '\n' :: joinLinesL rest

/-- The line list of a file content. -/
def splitLines (s : String) : List Line := splitLinesL s.data

/-- `lines[i]` as an optional value (undefined out of bounds). -/
def lineAt (lines : List Line) (i : Nat) : Option Line := lines.get? i

/-- `lines[i]` where the source guarantees the index in bounds (out of
bounds gives the empty line, which also models `lines[i] || ''`). -/
def lget (lines : List Line) (i : Nat) : Line := lines.getD i []

/-- Dialogue-block recognition shared by all three scans:
`lines[i].trim().startsWith('# game/') &&
 lines[i+1]?.trim().startsWith('translate french')`. -/
def isDialogueStart (lines : List Line) (i : Nat) : Bool :=
  prefixL "# game/".data (trimL (lget lines i)) &&
    (lineAt lines (i+1)).any fun l => prefixL "translate french".data (trimL l)

/-- Strings-block recognition shared by all three scans:
`lines[i].trim().startsWith('translate french strings:')`. -/
def isStringsStart (lines : List Line) (i : Nat) : Bool :=
  prefixL "translate french strings:".data (trimL (lget lines i))

/-- The `if (textToTranslate) linesToTranslate.push(textToTranslate)` step. -/
def emitIfNonEmpty (t : Line) : List Line := if t = [] then [] else [t]

/-- A `new` line with an empty payload, as tested by both strings-block
scanners: `nextLine.startsWith('new "') && (nextLine === 'new ""' ||
nextLine.endsWith('""'))` (applied to the trimmed line). -/
def isEmptyNewLine (t : Line) : Bool :=
  prefixL "new \"".data t && (t == "new \"\"".data || suffixL "\"\"".data t)

/-- `RenpyFileParserService.processTwoCommentedLinesCase`: emissions and the
index the block scan continues at. -/
def processTwoCommentedLinesCase (lines : List Line) (i : Nat) : List Line × Nat :=
  if i + 5 < lines.length then
    let first := trimL (lget lines (i+5))
    if !(first.contains '"') then
      (if i + 6 < lines.length ∧ containsSub "\"\"".data (trimL (lget lines (i+6))) then
        emitIfNonEmpty (extractQuoted (lget lines (i+4)))
       else [], i + 7)
    else
      (if containsSub "\"\"".data first then
        emitIfNonEmpty (extractQuoted (lget lines (i+4)))
       else [], i + 6)
  else ([], i + 6)

/-- `RenpyFileParserService.processSingleCommentedLineCase`. -/
def processSingleCommentedLineCase (lines : List Line) (i : Nat) : List Line × Nat :=
  (if i + 4 < lines.length ∧ containsSub "\"\"".data (trimL (lget lines (i+4))) then
    emitIfNonEmpty (extractQuoted (lget lines (i+3)))
   else [], i + 5)

/-- `RenpyFileParserService.processDialogueBlock`. -/
def processDialogueBlock (lines : List Line) (i : Nat) : List Line × Nat :=
  let c1 := (lineAt lines (i+3)).map trimL
  let c2 := (lineAt lines (i+4)).map trimL
  if c1.any (prefixL "#".data) && c2.any (prefixL "#".data) then
    processTwoCommentedLinesCase lines i
  else if c1.any (prefixL "#".data) then
    processSingleCommentedLineCase lines i
  else ([], i + 5)

/-- The `old`-line test of the strings-block scanners:
`currentLine.startsWith('old "')` on the trimmed line. -/
def isOldLine (l : Line) : Bool := prefixL "old \"".data (trimL l)

/-- The loop condition of `processStringsBlockForReplace`:
`lines[i].trim().startsWith('old "') || lines[i].trim() === ''`. -/
def isOldOrBlank (l : Line) : Bool := isOldLine l || trimL l == []

/-- The block-terminating test of the strings-block inner loops of
`extractLines` and `findLinesToFill`:
`currentLine.startsWith('translate') && !currentLine.includes('strings:')`. -/
def sBreakLine (l : Line) : Bool :=
  prefixL "translate".data (trimL l) && !(containsSub "strings:".data (trimL l))

/-- `RenpyFileParserService.processOldNewPair` (emissions only; the loop
index is advanced by the caller). -/
def processOldNewPair (lines : List Line) (i : Nat) : List Line :=
  if i + 1 < lines.length ∧ isEmptyNewLine (trimL (lget lines (i+1))) then
    emitIfNonEmpty ((oldSearch (trimL (lget lines i))).getD [])
  else []

/-- The inner `while` loop of `RenpyFileParserService.processStringsBlock`
(entered after the header): returns the emissions and the exit index. -/
def stringsExtractGo : Nat → List Line → Nat → List Line × Nat
  | 0, _, i => ([], i)
  | fuel+1, lines, i =>
    if i < lines.length then
      if sBreakLine (lget lines i) then ([], i)
      else
        ((if isOldLine (lget lines i) then processOldNewPair lines i
          else []) ++ (stringsExtractGo fuel lines (i+1)).1,
         (stringsExtractGo fuel lines (i+1)).2)
    else ([], i)

/-- The outer `while` loop of `RenpyFileParserService.extractLines`. -/
def extractGo : Nat → List Line → Nat → List Line
  | 0, _, _ => []
  | fuel+1, lines, i =>
    if i < lines.length then
      if isDialogueStart lines i then
        let r := processDialogueBlock lines i
        r.1 ++ extractGo fuel lines r.2
      else if isStringsStart lines i then
        let r := stringsExtractGo fuel lines (i+1)
        r.1 ++ extractGo fuel lines r.2
      else extractGo fuel lines (i+1)
    else []

/-- `RenpyFileParserService.extractLines`. -/
def extractLines (fileContent : String) : List String :=
  if fileContent = "" then []
  else
    ((extractGo (splitLines fileContent).length (splitLines fileContent) 0).map
      fun l => (⟨l⟩ : String))

/-- `RenpyFileParserService.addCommandToLinesToFill`: push
`` `${command} ""` `` when the extracted command is non-empty. -/
def addCommandFill (line : Line) : List Line :=
  let c := extractCommandL line
  if c = [] then [] else [c ++ " \"\"".data]

/-- `RenpyFileParserService.findLinesToFillInTwoCommentedLinesCase`
(together with `handleCommandWithoutQuotes` / `handleStandardCase`). -/
def findFillTwoCommented (lines : List Line) (i : Nat) : List Line × Nat :=
  if i + 5 < lines.length then
    let first := trimL (lget lines (i+5))
    if !(first.contains '"') then
      (if i + 6 < lines.length ∧ containsSub "\"\"".data (trimL (lget lines (i+6))) then
        addCommandFill (lget lines (i+4))
       else [], i + 7)
    else
      (if containsSub "\"\"".data first then addCommandFill (lget lines (i+4))
       else [], i + 6)
  else ([], i + 6)

/-- `RenpyFileParserService.findLinesToFillInSingleCommentedLineCase`. -/
def findFillSingleCommented (lines : List Line) (i : Nat) : List Line × Nat :=
  (if i + 4 < lines.length ∧ containsSub "\"\"".data (trimL (lget lines (i+4))) then
    addCommandFill (lget lines (i+3))
   else [], i + 5)

/-- `RenpyFileParserService.findLinesToFillInDialogueBlock`. -/
def findFillDialogue (lines : List Line) (i : Nat) : List Line × Nat :=
  let c1 := (lineAt lines (i+3)).map trimL
  let c2 := (lineAt lines (i+4)).map trimL
  if c1.any (prefixL "#".data) && c2.any (prefixL "#".data) then
    findFillTwoCommented lines i
  else if c1.any (prefixL "#".data) then
    findFillSingleCommented lines i
  else ([], i + 5)

/-- `RenpyFileParserService.processOldNewPairForFill` (emissions; the
function advances the loop index to the `new` line, i.e. by one). -/
def processOldNewPairForFill (lines : List Line) (i : Nat) : List Line :=
  if i + 1 < lines.length ∧ isEmptyNewLine (trimL (lget lines (i+1))) then
    ["new \"\"".data]
  else []

/-- The inner `while` loop of
`RenpyFileParserService.findLinesToFillInStringsBlock`. -/
def stringsFillGo : Nat → List Line → Nat → List Line × Nat
  | 0, _, i => ([], i)
  | fuel+1, lines, i =>
    if i < lines.length then
      if sBreakLine (lget lines i) then ([], i)
      else
        ((if isOldLine (lget lines i) then processOldNewPairForFill lines i
          else []) ++ (stringsFillGo fuel lines (i+1)).1,
         (stringsFillGo fuel lines (i+1)).2)
    else ([], i)

/-- The outer `while` loop of `RenpyFileParserService.findLinesToFill`. -/
def fillGo : Nat → List Line → Nat → List Line
  | 0, _, _ => []
  | fuel+1, lines, i =>
    if i < lines.length then
      if isDialogueStart lines i then
        let r := findFillDialogue lines i
        r.1 ++ fillGo fuel lines r.2
      else if isStringsStart lines i then
        let r := stringsFillGo fuel lines (i+1)
        r.1 ++ fillGo fuel lines r.2
      else fillGo fuel lines (i+1)
    else []

/-- `RenpyFileParserService.findLinesToFill`. -/
def findLinesToFill (fileContent : String) : List String :=
  if fileContent = "" then []
  else
    ((fillGo (splitLines fileContent).length (splitLines fileContent) 0).map
      fun l => (⟨l⟩ : String))

/-- The command of a filled line as computed by
`TranslationProcessorService.findFilledLineIndex`:
`filledLine.split('"')[0].trim()`. -/
def filledCommand (l : Line) : Line := trimL (l.takeWhile (· != '"'))

/-- The first `for` loop of `findFilledLineIndex` (from index 0): first
non-null entry whose command equals the wanted command exactly. -/
def findFilledMatchAux : List (Option Line) → Line → Option Nat
  | [], _ => none
  | o :: rest, cmd =>
    match o with
    | some l =>
      if filledCommand l = cmd then some 0
      else (findFilledMatchAux rest cmd).map (· + 1)
    | none => (findFilledMatchAux rest cmd).map (· + 1)

/-- The fallback `for` loop of `findFilledLineIndex`: first non-null entry
of any command. -/
def findFirstAvailAux : List (Option Line) → Option Nat
  | [] => none
  | some _ :: _ => some 0
  | none :: rest => (findFirstAvailAux rest).map (· + 1)

/-- `TranslationProcessorService.findFilledLineIndex` (`startIndex = 0` as
at every call site): exact command match first; for the command `new` no
fallback; otherwise the first available entry. -/
def findFilledLineIndex (avail : List (Option Line)) (cmd : Line) : Option Nat :=
  match findFilledMatchAux avail cmd with
  | some k => some k
  | none => if cmd = "new".data then none else findFirstAvailAux avail

/-- `TranslationProcessorService.fillLineWithTranslation`: emitted lines and
the updated available-filled-lines list (the consumed entry nulled out). -/
def fillLineWithTranslation (lines : List Line) (lineIndex : Nat)
    (avail : List (Option Line)) (ec : String → String) :
    List Line × List (Option Line) :=
  let cmd := (ec (⟨lget lines lineIndex⟩ : String)).data
  match findFilledLineIndex avail cmd with
  | none => ([lget lines lineIndex], avail)
  | some k => (["    ".data ++ ((avail.getD k none).getD [])], avail.set k none)

/-- `TranslationProcessorService.fillNewLineWithTranslation` (the command is
the literal `new`). -/
def fillNewLineWithTranslation (lines : List Line) (lineIndex : Nat)
    (avail : List (Option Line)) : List Line × List (Option Line) :=
  match findFilledLineIndex avail "new".data with
  | none => ([lget lines lineIndex], avail)
  | some k => (["    ".data ++ ((avail.getD k none).getD [])], avail.set k none)

/-- The `if (lines[i + 3]) outputLines.push(lines[i + 3])` pushes of the
unrecognized-structure branch of `processDialogueBlockForReplace` (a missing
or empty line is skipped). -/
def truthyPush (o : Option Line) : List Line :=
  match o with
  | some l => if l = [] then [] else [l]
  | none => []

/-- `TranslationProcessorService.processDialogueBlockForReplace` together
with its branch helpers `processTwoCommentedLinesForReplace`,
`handleCommandWithoutQuotesForReplace`, `handleStandardCaseForReplace` and
`processSingleCommentedLineForReplace`.  Returns the output lines of the
block, the continuation index, and the updated filled-lines list. -/
def pdbReplace (lines : List Line) (i : Nat) (avail : List (Option Line))
    (ec : String → String) : List Line × Nat × List (Option Line) :=
  let head3 := [lget lines i, lget lines (i+1), lget lines (i+2)]
  let c1 := (lineAt lines (i+3)).map trimL
  let c2 := (lineAt lines (i+4)).map trimL
  if c1.any (prefixL "#".data) && c2.any (prefixL "#".data) then
    let outC := head3 ++ [lget lines (i+3), lget lines (i+4)]
    if i + 5 < lines.length then
      let first := trimL (lget lines (i+5))
      if first.contains '"' then
        if containsSub "\"\"".data first then
          let r := fillLineWithTranslation lines (i+5) avail ec
          (outC ++ r.1, i + 6, r.2)
        else (outC ++ [lget lines (i+5)], i + 6, avail)
      else
        let out5 := outC ++ [lget lines (i+5)]
        if i + 6 < lines.length then
          if containsSub "\"\"".data (trimL (lget lines (i+6))) then
            let r := fillLineWithTranslation lines (i+6) avail ec
            (out5 ++ r.1, i + 7, r.2)
          else (out5 ++ [lget lines (i+6)], i + 7, avail)
        else (out5 ++ [[]], i + 7, avail)
    else (outC ++ [[]], i + 6, avail)
  else if c1.any (prefixL "#".data) then
    let outC := head3 ++ [lget lines (i+3)]
    if i + 4 < lines.length then
      if containsSub "\"\"".data (trimL (lget lines (i+4))) then
        let r := fillLineWithTranslation lines (i+4) avail ec
        (outC ++ r.1, i + 5, r.2)
      else (outC ++ [lget lines (i+4)], i + 5, avail)
    else (outC ++ [[]], i + 5, avail)
  else
    (head3 ++ truthyPush (lineAt lines (i+3)) ++ truthyPush (lineAt lines (i+4)),
     i + 5, avail)

/-- The `while` loop of
`TranslationProcessorService.processStringsBlockForReplace` (entered after
the header line has been pushed): output lines, exit index, updated
filled-lines list. -/
def stringsReplaceGo : Nat → List Line → Nat → List (Option Line) →
    List Line × Nat × List (Option Line)
  | 0, _, i, avail => ([], i, avail)
  | fuel+1, lines, i, avail =>
    if i < lines.length ∧ isOldOrBlank (lget lines i) = true then
      if i + 1 < lines.length then
        if trimL (lget lines (i+1)) ≠ [] ∧ isEmptyNewLine (trimL (lget lines (i+1))) = true then
          (lget lines i :: (fillNewLineWithTranslation lines (i+1) avail).1 ++
            (stringsReplaceGo fuel lines (i+2) (fillNewLineWithTranslation lines (i+1) avail).2).1,
           (stringsReplaceGo fuel lines (i+2) (fillNewLineWithTranslation lines (i+1) avail).2).2.1,
           (stringsReplaceGo fuel lines (i+2) (fillNewLineWithTranslation lines (i+1) avail).2).2.2)
        else
          (lget lines i :: lget lines (i+1) :: (stringsReplaceGo fuel lines (i+2) avail).1,
           (stringsReplaceGo fuel lines (i+2) avail).2.1,
           (stringsReplaceGo fuel lines (i+2) avail).2.2)
      else
        (lget lines i :: (stringsReplaceGo fuel lines (i+2) avail).1,
         (stringsReplaceGo fuel lines (i+2) avail).2.1,
         (stringsReplaceGo fuel lines (i+2) avail).2.2)
    else ([], i, avail)

/-- The outer `while` loop of `TranslationProcessorService.replaceLines`
(the strings-block case pushes the header line and enters the inner loop at
the next index, as `processStringsBlockForReplace` does). -/
def replaceGo : Nat → List Line → Nat → List (Option Line) → (String → String) →
    List Line × List (Option Line)
  | 0, _, _, avail, _ => ([], avail)
  | fuel+1, lines, i, avail, ec =>
    if i < lines.length then
      if isDialogueStart lines i then
        let b := pdbReplace lines i avail ec
        let r := replaceGo fuel lines b.2.1 b.2.2 ec
        (b.1 ++ r.1, r.2)
      else if isStringsStart lines i then
        let b := stringsReplaceGo fuel lines (i+1) avail
        let r := replaceGo fuel lines b.2.1 b.2.2 ec
        (lget lines i :: b.1 ++ r.1, r.2)
      else
        let r := replaceGo fuel lines (i+1) avail ec
        (lget lines i :: r.1, r.2)
    else ([], avail)

/-- `TranslationProcessorService.replaceLines`. -/
def replaceLines (fileContent : String) (filledLines : List String)
    (ec : String → String) : String :=
  if fileContent = "" then ""
  else
    let lines := splitLines fileContent
    ⟨joinLinesL (replaceGo lines.length lines 0 (filledLines.map fun s => some s.data) ec).1⟩

/-- Structural completeness of one dialogue block for `replaceLines` (the
condition under which the rewriter neither pads a truncated block with
empty lines nor drops a falsy line): the lines the block consumes must
exist, and in the unrecognized-structure branch the two trailing lines
must also be non-empty, since the source only pushes them when truthy. -/
def dialogueOkAt (lines : List Line) (i : Nat) : Bool :=
  if ((lineAt lines (i+3)).map trimL).any (prefixL "#".data) &&
      ((lineAt lines (i+4)).map trimL).any (prefixL "#".data) then
    decide (i + 5 < lines.length) &&
      ((trimL (lget lines (i+5))).contains '"' || decide (i + 6 < lines.length))
  else if ((lineAt lines (i+3)).map trimL).any (prefixL "#".data) then
    decide (i + 4 < lines.length)
  else
    decide (i + 4 < lines.length) && decide (lget lines (i+3) ≠ []) &&
      decide (lget lines (i+4) ≠ [])

/-- The continuation index of a dialogue block in the `replaceLines` scan. -/
def dialogueExitAt (lines : List Line) (i : Nat) : Nat :=
  if ((lineAt lines (i+3)).map trimL).any (prefixL "#".data) &&
      ((lineAt lines (i+4)).map trimL).any (prefixL "#".data) then
    if i + 5 < lines.length then
      if (trimL (lget lines (i+5))).contains '"' then i + 6 else i + 7
    else i + 6
  else i + 5

/-- Structural completeness of the dialogue blocks met by the `replaceLines`
scan, following the branch structure of `replaceGo`. -/
def replaceOk : Nat → List Line → Nat → Bool
  | 0, _, _ => true
  | fuel+1, lines, i =>
    if i < lines.length then
      if isDialogueStart lines i then
        dialogueOkAt lines i && replaceOk fuel lines (dialogueExitAt lines i)
      else if isStringsStart lines i then
        replaceOk fuel lines (stringsReplaceGo fuel lines (i+1) []).2.1
      else replaceOk fuel lines (i+1)
    else true

/-- Structural completeness of a whole file for `replaceLines`. -/
def replaceOkTop (s : String) : Bool :=
  replaceOk (splitLines s).length (splitLines s) 0

/-- Number of lines before the first terminating line. -/
def sExitL : List Line → Nat
  | [] => 0
  | l :: rest => if sBreakLine l then 0 else sExitL rest + 1

/-- The index of the first terminating line at or after `i` (the length of
the file if none): the specified exit point of the strings-block inner
loops of `extractLines` and `findLinesToFill`. -/
def sExit (lines : List Line) (i : Nat) : Nat := i + sExitL (lines.drop i)

/-! ### Basic lemmas about the line-access and character-list helpers -/

theorem lget_eq_getElem (lines : List Line) (i : Nat) (h : i < lines.length) :
    lget lines i = lines[i] := by
  simp [lget, List.getD_eq_getElem?_getD, List.getElem?_eq_getElem h]

theorem lineAt_eq_some (lines : List Line) (i : Nat) (h : i < lines.length) :
    lineAt lines i = some (lget lines i) := by
  rw [lineAt, List.get?_eq_get h, lget_eq_getElem lines i h]
  simp [List.get_eq_getElem]

theorem lineAt_eq_none (lines : List Line) (i : Nat) (h : lines.length ≤ i) :
    lineAt lines i = none := by
  rw [lineAt]; exact List.get?_eq_none.mpr h

theorem drop_lget (lines : List Line) (i : Nat) (h : i < lines.length) :
    lines.drop i = lget lines i :: lines.drop (i+1) := by
  rw [List.drop_eq_getElem_cons h, lget_eq_getElem lines i h]

theorem lget_mem (lines : List Line) (i : Nat) (h : i < lines.length) :
    lget lines i ∈ lines := by
  rw [lget_eq_getElem lines i h]; exact List.getElem_mem h

theorem dropWhile_head_false (p : Char → Bool) :
    ∀ {l : List Char} {c : Char} {t : List Char}, l.dropWhile p = c :: t → p c = false := by
  intro l
  induction l with
  | nil => intro c t h; simp [List.dropWhile] at h
  | cons a l ih =>
    intro c t h
    rw [List.dropWhile_cons] at h
    split at h
    · exact ih h
    · cases h; simpa using ‹¬ p a = true›

theorem dropWhile_append_singleton {p : Char → Bool} {c : Char} (hc : p c = false) :
    ∀ xs : List Char, ∃ ys, (xs ++ [c]).dropWhile p = ys ++ [c] := by
  intro xs
  induction xs with
  | nil => exact ⟨[], by simp [List.dropWhile, hc]⟩
  | cons x xs ih =>
    by_cases hx : p x = true
    · obtain ⟨ys, hys⟩ := ih
      exact ⟨ys, by simp [List.dropWhile_cons, hx, hys]⟩
    · exact ⟨x :: xs, by simp [List.dropWhile_cons, hx]⟩

theorem trimL_cons {c : Char} (hc : isSpc c = false) (t : List Char) :
    ∃ t', trimL (c :: t) = c :: t' := by
  unfold trimL
  rw [List.dropWhile_cons]
  simp only [hc, Bool.false_eq_true, if_neg, ite_false]
  rw [List.reverse_cons]
  obtain ⟨ys, hys⟩ := dropWhile_append_singleton hc t.reverse
  rw [hys, List.reverse_append]
  exact ⟨ys.reverse, rfl⟩

theorem trimL_head {l : List Char} {c : Char} {t : List Char}
    (h : trimL l = c :: t) : isSpc c = false := by
  unfold trimL at h
  rcases hX : l.dropWhile isSpc with _ | ⟨d, ds⟩
  · rw [hX] at h; simp at h
  · rw [hX] at h
    have hd : isSpc d = false := dropWhile_head_false isSpc hX
    obtain ⟨ys, hys⟩ := dropWhile_append_singleton hd ds.reverse
    rw [List.reverse_cons, hys, List.reverse_append] at h
    simp at h
    rcases h with ⟨h1, _⟩
    rw [← h1]; exact hd

theorem mem_dropWhile {p : Char → Bool} {c : Char} (hc : p c = false) :
    ∀ {l : List Char}, c ∈ l → c ∈ l.dropWhile p := by
  intro l
  induction l with
  | nil => intro h; simp at h
  | cons a l ih =>
    intro h
    rw [List.dropWhile_cons]
    split
    · rcases List.mem_cons.mp h with rfl | hmem
      · rw [hc] at *; simp_all
      · exact ih hmem
    · exact h

theorem mem_trimL {c : Char} {l : List Char} (hm : c ∈ l) (hc : isSpc c = false) :
    c ∈ trimL l := by
  unfold trimL
  rw [List.mem_reverse]
  exact mem_dropWhile hc (List.mem_reverse.mpr (mem_dropWhile hc hm))

theorem mem_stripHash {c : Char} {l : List Char} (hm : c ∈ l) (hne : c ≠ '#')
    (hc : isSpc c = false) : c ∈ stripHash l := by
  cases l with
  | nil => simp at hm
  | cons a rest =>
    rw [stripHash]
    split
    · rcases List.mem_cons.mp hm with rfl | hmem
      · exact absurd ‹c = '#'› hne
      · exact mem_dropWhile hc hmem
    · exact hm

theorem stripHash_trimL_head {l : List Char} {c : Char} {t : List Char}
    (h : stripHash (trimL l) = c :: t) : isSpc c = false := by
  rcases hm : trimL l with _ | ⟨a, rest⟩
  · rw [hm] at h; simp [stripHash] at h
  · rw [hm, stripHash] at h
    split at h
    · exact dropWhile_head_false isSpc h
    · cases h; exact trimL_head hm

/-! ### Split / join round trip -/

theorem splitLinesL_ne_nil (cs : List Char) : splitLinesL cs ≠ [] := by
  induction cs with
  | nil => simp [splitLinesL]
  | cons c cs ih =>
    rw [splitLinesL]
    split
    · simp
    · rcases h : splitLinesL cs with _ | ⟨x, xs⟩ <;> simp

theorem joinLinesL_cons (l h : Line) (t : List Line) :
    joinLinesL (l :: h :: t) = l ++ '\n' :: joinLinesL (h :: t) := rfl

theorem join_split (cs : List Char) : joinLinesL (splitLinesL cs) = cs := by
  induction cs with
  | nil => rfl
  | cons c cs ih =>
    rw [splitLinesL]
    split
    · rcases h : splitLinesL cs with _ | ⟨x, xs⟩
      · exact absurd h (splitLinesL_ne_nil cs)
      · rw [h] at ih
        rw [joinLinesL_cons, ← ih]
        simp [*]
    · rcases h : splitLinesL cs with _ | ⟨x, xs⟩
      · exact absurd h (splitLinesL_ne_nil cs)
      · rw [h] at ih
        cases xs with
        | nil =>
          simp only [joinLinesL] at ih ⊢
          rw [ih]
        | cons y ys =>
          rw [joinLinesL_cons] at ih ⊢
          rw [List.cons_append, ih]

/-! ### An extraction emission forces a fill emission (claim C1) -/

theorem extractQuoted_quote {l : Line} (h : extractQuoted l ≠ []) : '"' ∈ l := by
  unfold extractQuoted at h
  rcases hd : l.dropWhile (· != '"') with _ | ⟨d, rest⟩
  · rw [hd] at h; simp at h
  · have hdq : (d != '"') = false := dropWhile_head_false (fun x => x != '"') hd
    have : d = '"' := by simpa using hdq
    subst this
    have : '"' ∈ l.dropWhile (· != '"') := by rw [hd]; exact List.mem_cons_self _ _
    exact (List.dropWhile_sublist _).subset this

theorem extractCommandL_ne_nil {l : Line} (h : '"' ∈ l) : extractCommandL l ≠ [] := by
  have hq : '"' ∈ stripHash (trimL l) :=
    mem_stripHash (mem_trimL h (by decide)) (by decide) (by decide)
  unfold extractCommandL
  rcases hc : stripHash (trimL l) with _ | ⟨a, rest⟩
  · rw [hc] at hq; simp at hq
  · have ha : isSpc a = false := stripHash_trimL_head hc
    simp only
    split
    · rename_i hcond
      have haq : (a != '"') = true := by
        simp only [List.head?_cons, Bool.and_eq_true, bne_iff_ne] at hcond
        simpa using hcond.2
      rw [List.takeWhile_cons, haq]
      simp only [if_true]
      obtain ⟨t', ht'⟩ := trimL_cons ha (rest.takeWhile (· != '"'))
      rw [ht']
      simp
    · rw [List.takeWhile_cons]
      simp [ha]

theorem emit_len_le (l : Line) :
    (emitIfNonEmpty (extractQuoted l)).length ≤ (addCommandFill l).length := by
  unfold emitIfNonEmpty addCommandFill
  split
  · simp
  · rename_i hne
    have hc : extractCommandL l ≠ [] := extractCommandL_ne_nil (extractQuoted_quote hne)
    simp [hc]

theorem pdb_exit_eq (lines : List Line) (i : Nat) :
    (processDialogueBlock lines i).2 = (findFillDialogue lines i).2 := by
  unfold processDialogueBlock findFillDialogue
  dsimp only
  split
  · unfold processTwoCommentedLinesCase findFillTwoCommented
    dsimp only
    split
    · split <;> rfl
    · rfl
  · split
    · unfold processSingleCommentedLineCase findFillSingleCommented
      rfl
    · rfl

theorem pdb_len_le (lines : List Line) (i : Nat) :
    (processDialogueBlock lines i).1.length ≤ (findFillDialogue lines i).1.length := by
  unfold processDialogueBlock findFillDialogue
  dsimp only
  split
  · unfold processTwoCommentedLinesCase findFillTwoCommented
    dsimp only
    split
    · split
      · simp only
        split
        · exact emit_len_le _
        · simp
      · simp only
        split
        · exact emit_len_le _
        · simp
    · simp
  · split
    · unfold processSingleCommentedLineCase findFillSingleCommented
      dsimp only
      split
      · exact emit_len_le _
      · simp
    · simp

theorem pair_len_le (lines : List Line) (i : Nat) :
    (processOldNewPair lines i).length ≤ (processOldNewPairForFill lines i).length := by
  unfold processOldNewPair processOldNewPairForFill
  split
  · unfold emitIfNonEmpty
    split <;> simp
  · simp

theorem strings_go_le (fuel : Nat) (lines : List Line) :
    ∀ i, (stringsExtractGo fuel lines i).2 = (stringsFillGo fuel lines i).2 ∧
      (stringsExtractGo fuel lines i).1.length ≤ (stringsFillGo fuel lines i).1.length := by
  induction fuel with
  | zero => intro i; simp [stringsExtractGo, stringsFillGo]
  | succ fuel ih =>
    intro i
    rw [stringsExtractGo, stringsFillGo]
    split
    · split
      · simp
      · obtain ⟨h1, h2⟩ := ih (i+1)
        refine ⟨by simpa using h1, ?_⟩
        simp only [List.length_append]
        refine Nat.add_le_add ?_ h2
        split
        · exact pair_len_le lines i
        · simp
    · simp

theorem go_len_le (fuel : Nat) (lines : List Line) :
    ∀ i, (extractGo fuel lines i).length ≤ (fillGo fuel lines i).length := by
  induction fuel with
  | zero => intro i; simp [extractGo, fillGo]
  | succ fuel ih =>
    intro i
    rw [extractGo, fillGo]
    split
    · split
      · simp only [List.length_append]
        have h2 := pdb_exit_eq lines i
        have h1 := pdb_len_le lines i
        rw [h2]
        exact Nat.add_le_add h1 (ih _)
      · split
        · simp only [List.length_append]
          obtain ⟨h1, h2⟩ := strings_go_le fuel lines (i+1)
          rw [h1]
          exact Nat.add_le_add h2 (ih _)
        · exact ih (i+1)
    · simp

/-- C1 (amended): for every input text, `extractLines` never returns more
entries than `findLinesToFill`: every extracted source text comes from an
empty slot for which a fill descriptor is also emitted, while a slot whose
paired source text is empty emits a descriptor but no extracted text. -/
theorem c1_extract_le_fill (s : String) :
    (extractLines s).length ≤ (findLinesToFill s).length := by
  unfold extractLines findLinesToFill
  split
  · simp
  · simpa using go_len_le (splitLines s).length (splitLines s) 0

/-- C1 counterexample: on the strings block `old ""` / `new ""` the two
scanning functions return arrays of different lengths (0 extracted texts,
1 fill descriptor), refuting the claimed equality. -/
theorem c1_counterexample :
    extractLines "translate french strings:\nold \"\"\nnew \"\"" = [] ∧
    findLinesToFill "translate french strings:\nold \"\"\nnew \"\"" = ["new \"\""] ∧
    ¬ (extractLines "translate french strings:\nold \"\"\nnew \"\"").length =
      (findLinesToFill "translate french strings:\nold \"\"\nnew \"\"").length := by
  refine ⟨by decide, by decide, by decide⟩

/-- C3: on the five-line dialogue block of the spec, extraction yields
`["Hello"]`, fill-finding yields `["sh_i neutral \"\""]`, and replacement
with the filled line `sh_i neutral "Bonjour"` rewrites exactly the slot line
(four-space indented) while all other lines stay byte-identical. -/
theorem c3_dialogue_round_trip :
    extractLines
        "# game/script.rpy:10\ntranslate french block_1:\n\n    # sh_i neutral \"Hello\"\n    sh_i neutral \"\"" =
      ["Hello"] ∧
    findLinesToFill
        "# game/script.rpy:10\ntranslate french block_1:\n\n    # sh_i neutral \"Hello\"\n    sh_i neutral \"\"" =
      ["sh_i neutral \"\""] ∧
    replaceLines
        "# game/script.rpy:10\ntranslate french block_1:\n\n    # sh_i neutral \"Hello\"\n    sh_i neutral \"\""
        ["sh_i neutral \"Bonjour\""] extractCommand =
      "# game/script.rpy:10\ntranslate french block_1:\n\n    # sh_i neutral \"Hello\"\n    sh_i neutral \"Bonjour\"" := by
  refine ⟨by decide, by decide, by decide⟩

/-- C7: on the three-line strings block, extraction yields `["Yes"]`,
fill-finding yields `["new \"\""]`, and replacement with the filled line
`new "Oui"` rewrites exactly the `new ""` line to `    new "Oui"`. -/
theorem c7_strings_round_trip :
    extractLines "translate french strings:\n    old \"Yes\"\n    new \"\"" = ["Yes"] ∧
    findLinesToFill "translate french strings:\n    old \"Yes\"\n    new \"\"" = ["new \"\""] ∧
    replaceLines "translate french strings:\n    old \"Yes\"\n    new \"\"" ["new \"Oui\""]
        extractCommand =
      "translate french strings:\n    old \"Yes\"\n    new \"Oui\"" := by
  refine ⟨by decide, by decide, by decide⟩

/-! ### Claim C6: emptiness characterization of extractCommand -/

theorem extractCommandL_eq_nil_iff (l : Line) :
    extractCommandL l = [] ↔ stripHash (trimL l) = [] := by
  constructor
  · intro h
    rcases hc : stripHash (trimL l) with _ | ⟨a, rest⟩
    · rfl
    · exfalso
      have ha : isSpc a = false := stripHash_trimL_head hc
      simp only [extractCommandL, hc] at h
      split at h
      · rename_i hcond
        have haq : (a != '"') = true := by
          simp only [List.head?_cons, Bool.and_eq_true, bne_iff_ne] at hcond
          simpa using hcond.2
        rw [List.takeWhile_cons, haq] at h
        simp only [if_true] at h
        obtain ⟨t', ht'⟩ := trimL_cons ha (rest.takeWhile (· != '"'))
        rw [ht'] at h
        simp at h
      · rw [List.takeWhile_cons] at h
        simp [ha] at h
  · intro h
    simp only [extractCommandL, h]
    simp

/-- C6 (amended): `extractCommand` trims the line, strips a single leading
`#` plus following whitespace, returns the trimmed text before the first
double quote (or, failing that, the first whitespace-delimited token), and
returns the empty string exactly when the line is empty after trimming
*and* hash-stripping — not merely after trimming: the line `"#"` is
non-empty after trimming yet yields the empty command. -/
theorem c6_empty_command_iff (line : String) :
    extractCommand line = "" ↔ stripHash (trimL line.data) = [] := by
  rw [extractCommand]
  constructor
  · intro h
    have hd : extractCommandL line.data = [] := congrArg String.data h
    exact (extractCommandL_eq_nil_iff _).mp hd
  · intro h
    have hd := (extractCommandL_eq_nil_iff line.data).mpr h
    rw [hd]

/-- C6 counterexample: `extractCommand "#" = ""` although `"#"` is not
empty after trimming, refuting the claim that the empty string is returned
only for lines empty after trimming. -/
theorem c6_counterexample :
    extractCommand "#" = "" ∧ trimL "#".data ≠ [] := by
  refine ⟨by decide, by decide⟩

/-! ### Claim C10: shapes of the emitted entries -/

theorem mem_emitIfNonEmpty {x t : Line} (h : x ∈ emitIfNonEmpty t) : x = t ∧ t ≠ [] := by
  unfold emitIfNonEmpty at h
  split at h
  · simp at h
  · rename_i hne
    simp at h
    exact ⟨h, hne⟩

theorem mem_emit_ne_nil {x t : Line} (h : x ∈ emitIfNonEmpty t) : x ≠ [] := by
  obtain ⟨rfl, hne⟩ := mem_emitIfNonEmpty h
  exact hne

theorem pdb_mem_ne_nil {lines : List Line} {i : Nat} {x : Line}
    (h : x ∈ (processDialogueBlock lines i).1) : x ≠ [] := by
  unfold processDialogueBlock processTwoCommentedLinesCase processSingleCommentedLineCase at h
  dsimp only at h
  repeat' split at h
  all_goals first
    | exact mem_emit_ne_nil h
    | simp at h

theorem pair_mem_ne_nil {lines : List Line} {i : Nat} {x : Line}
    (h : x ∈ processOldNewPair lines i) : x ≠ [] := by
  unfold processOldNewPair at h
  split at h
  · exact mem_emit_ne_nil h
  · simp at h

theorem strings_mem_ne_nil (fuel : Nat) (lines : List Line) :
    ∀ i x, x ∈ (stringsExtractGo fuel lines i).1 → x ≠ [] := by
  induction fuel with
  | zero => intro i x h; simp [stringsExtractGo] at h
  | succ fuel ih =>
    intro i x h
    rw [stringsExtractGo] at h
    split at h
    · split at h
      · simp at h
      · dsimp only at h
        rcases List.mem_append.mp h with h1 | h2
        · split at h1
          · exact pair_mem_ne_nil h1
          · simp at h1
        · exact ih _ _ h2
    · simp at h

theorem extract_emission_ne_nil (fuel : Nat) (lines : List Line) :
    ∀ i x, x ∈ extractGo fuel lines i → x ≠ [] := by
  induction fuel with
  | zero => intro i x h; simp [extractGo] at h
  | succ fuel ih =>
    intro i x h
    rw [extractGo] at h
    split at h
    · split at h
      · dsimp only at h
        rcases List.mem_append.mp h with h1 | h2
        · exact pdb_mem_ne_nil h1
        · exact ih _ _ h2
      · split at h
        · dsimp only at h
          rcases List.mem_append.mp h with h1 | h2
          · exact strings_mem_ne_nil fuel lines _ _ h1
          · exact ih _ _ h2
        · exact ih _ _ h
    · simp at h

theorem mem_addCommandFill {y l : Line} (h : y ∈ addCommandFill l) :
    ∃ c, c ≠ [] ∧ y = c ++ " \"\"".data := by
  unfold addCommandFill at h
  dsimp only at h
  split at h
  · simp at h
  · rename_i hne
    simp at h
    exact ⟨extractCommandL l, hne, h⟩

theorem fill_pdb_mem {lines : List Line} {i : Nat} {y : Line}
    (h : y ∈ (findFillDialogue lines i).1) : ∃ c, c ≠ [] ∧ y = c ++ " \"\"".data := by
  unfold findFillDialogue findFillTwoCommented findFillSingleCommented at h
  dsimp only at h
  repeat' split at h
  all_goals first
    | exact mem_addCommandFill h
    | simp at h

theorem fill_pair_mem {lines : List Line} {i : Nat} {y : Line}
    (h : y ∈ processOldNewPairForFill lines i) : ∃ c, c ≠ [] ∧ y = c ++ " \"\"".data := by
  unfold processOldNewPairForFill at h
  split at h
  · simp at h
    exact ⟨"new".data, by decide, by rw [h]; rfl⟩
  · simp at h

theorem strings_fill_mem (fuel : Nat) (lines : List Line) :
    ∀ i y, y ∈ (stringsFillGo fuel lines i).1 → ∃ c, c ≠ [] ∧ y = c ++ " \"\"".data := by
  induction fuel with
  | zero => intro i y h; simp [stringsFillGo] at h
  | succ fuel ih =>
    intro i y h
    rw [stringsFillGo] at h
    split at h
    · split at h
      · simp at h
      · dsimp only at h
        rcases List.mem_append.mp h with h1 | h2
        · split at h1
          · exact fill_pair_mem h1
          · simp at h1
        · exact ih _ _ h2
    · simp at h

theorem fill_emission_form (fuel : Nat) (lines : List Line) :
    ∀ i y, y ∈ fillGo fuel lines i → ∃ c, c ≠ [] ∧ y = c ++ " \"\"".data := by
  induction fuel with
  | zero => intro i y h; simp [fillGo] at h
  | succ fuel ih =>
    intro i y h
    rw [fillGo] at h
    split at h
    · split at h
      · dsimp only at h
        rcases List.mem_append.mp h with h1 | h2
        · exact fill_pdb_mem h1
        · exact ih _ _ h2
      · split at h
        · dsimp only at h
          rcases List.mem_append.mp h with h1 | h2
          · exact strings_fill_mem fuel lines _ _ h1
          · exact ih _ _ h2
        · exact ih _ _ h
    · simp at h

/-- C10: every string returned by `extractLines` is non-empty (a slot whose
paired source text is empty emits nothing), and every entry of
`findLinesToFill` is `<command> ""` for a non-empty command (`new ""` being
the strings-block instance). -/
theorem c10_emission_shapes (s : String) :
    (∀ x ∈ extractLines s, x ≠ "") ∧
    (∀ y ∈ findLinesToFill s, ∃ c : String, c ≠ "" ∧ y = c ++ " \"\"") := by
  constructor
  · intro x hx
    unfold extractLines at hx
    split at hx
    · simp at hx
    · obtain ⟨l, hl, rfl⟩ := List.mem_map.mp hx
      have hne := extract_emission_ne_nil _ _ _ _ hl
      intro hc
      exact hne (congrArg String.data hc)
  · intro y hy
    unfold findLinesToFill at hy
    split at hy
    · simp at hy
    · obtain ⟨l, hl, rfl⟩ := List.mem_map.mp hy
      obtain ⟨c, hc, rfl⟩ := fill_emission_form _ _ _ _ hl
      refine ⟨⟨c⟩, ?_, ?_⟩
      · intro h
        exact hc (congrArg String.data h)
      · rfl

/-- Witness for C10 at the strings block of C7. -/
theorem c10_witness :
    (("Yes" : String) ≠ "") ∧ (∃ c : String, c ≠ "" ∧ "new \"\"" = c ++ " \"\"") := by
  constructor
  · exact (c10_emission_shapes "translate french strings:\n    old \"Yes\"\n    new \"\"").1
      "Yes" (by decide)
  · exact (c10_emission_shapes "translate french strings:\n    old \"Yes\"\n    new \"\"").2
      "new \"\"" (by decide)

/-! ### Claim C4: matching policy of the rewriter -/

theorem findFilledMatchAux_some {avail : List (Option Line)} {cmd : Line} {k : Nat} {l : Line}
    (hk : k < avail.length) (hget : avail.getD k none = some l)
    (hcmd : filledCommand l = cmd)
    (hmin : ∀ j l', j < k → avail.getD j none = some l' → filledCommand l' ≠ cmd) :
    findFilledMatchAux avail cmd = some k := by
  induction avail generalizing k with
  | nil => simp at hk
  | cons o rest ih =>
    cases k with
    | zero =>
      rw [List.getD_cons_zero] at hget
      subst hget
      simp [findFilledMatchAux, hcmd]
    | succ k =>
      rw [List.getD_cons_succ] at hget
      have hrec : findFilledMatchAux rest cmd = some k := by
        refine ih (by simpa using hk) hget ?_
        intro j l' hj hg
        exact hmin (j+1) l' (by omega) (by simpa using hg)
      cases o with
      | none =>
        simp only [findFilledMatchAux]
        rw [hrec]
        rfl
      | some l0 =>
        have hne : ¬ filledCommand l0 = cmd :=
          hmin 0 l0 (Nat.succ_pos k) (by rw [List.getD_cons_zero])
        simp only [findFilledMatchAux]
        rw [if_neg hne, hrec]
        rfl

theorem findFilledMatchAux_none {avail : List (Option Line)} {cmd : Line}
    (h : ∀ j l', j < avail.length → avail.getD j none = some l' → filledCommand l' ≠ cmd) :
    findFilledMatchAux avail cmd = none := by
  induction avail with
  | nil => rfl
  | cons o rest ih =>
    have hrec : findFilledMatchAux rest cmd = none := by
      refine ih ?_
      intro j l' hj hg
      exact h (j+1) l' (by simp; omega) (by simpa using hg)
    cases o with
    | none =>
      simp only [findFilledMatchAux]
      rw [hrec]
      rfl
    | some l0 =>
      have hne : ¬ filledCommand l0 = cmd :=
        h 0 l0 (by simp) (by rw [List.getD_cons_zero])
      simp only [findFilledMatchAux]
      rw [if_neg hne, hrec]
      rfl

theorem findFirstAvailAux_some {avail : List (Option Line)} {k : Nat} {l : Line}
    (hk : k < avail.length) (hget : avail.getD k none = some l)
    (hmin : ∀ j, j < k → avail.getD j none = none) :
    findFirstAvailAux avail = some k := by
  induction avail generalizing k with
  | nil => simp at hk
  | cons o rest ih =>
    cases k with
    | zero =>
      rw [List.getD_cons_zero] at hget
      subst hget
      rfl
    | succ k =>
      have h0 : o = none := by
        have := hmin 0 (Nat.succ_pos k)
        rwa [List.getD_cons_zero] at this
      subst h0
      rw [List.getD_cons_succ] at hget
      have hrec : findFirstAvailAux rest = some k := by
        refine ih (by simpa using hk) hget ?_
        intro j hj
        have := hmin (j+1) (by omega)
        rwa [List.getD_cons_succ] at this
      simp only [findFirstAvailAux]
      rw [hrec]
      rfl

theorem findFirstAvailAux_none {avail : List (Option Line)}
    (h : ∀ j, j < avail.length → avail.getD j none = none) :
    findFirstAvailAux avail = none := by
  induction avail with
  | nil => rfl
  | cons o rest ih =>
    have h0 : o = none := by
      have := h 0 (by simp)
      rwa [List.getD_cons_zero] at this
    subst h0
    have hrec : findFirstAvailAux rest = none := by
      refine ih ?_
      intro j hj
      have := h (j+1) (by simp; omega)
      rwa [List.getD_cons_succ] at this
    simp only [findFirstAvailAux]
    rw [hrec]
    rfl

/-- C4: `replaceLines`' per-slot policy, as implemented by
`fillLineWithTranslation` over the mutable filled-lines list: (1) the first
unconsumed entry whose command (text before its first quote, trimmed)
equals the slot's command exactly is emitted four-space indented and nulled
out; (2) failing an exact match, when the slot's command is not the literal
`new`, the first unconsumed entry of any command is used the same way; (3)
with no exact match and command `new` no fallback is applied and the
original line is kept; (4) with no unconsumed entry at all the original
line is kept. -/
theorem c4_fill_policy (lines : List Line) (idx : Nat) (avail : List (Option Line))
    (ec : String → String) (cmd : Line)
    (hc : (ec (⟨lget lines idx⟩ : String)).data = cmd) :
    (∀ k l, k < avail.length → avail.getD k none = some l → filledCommand l = cmd →
        (∀ j l', j < k → avail.getD j none = some l' → filledCommand l' ≠ cmd) →
        fillLineWithTranslation lines idx avail ec =
          (["    ".data ++ l], avail.set k none)) ∧
    ((∀ j l', j < avail.length → avail.getD j none = some l' → filledCommand l' ≠ cmd) →
        cmd ≠ "new".data →
        ∀ k l, k < avail.length → avail.getD k none = some l →
          (∀ j, j < k → avail.getD j none = none) →
          fillLineWithTranslation lines idx avail ec =
            (["    ".data ++ l], avail.set k none)) ∧
    ((∀ j l', j < avail.length → avail.getD j none = some l' → filledCommand l' ≠ cmd) →
        cmd = "new".data →
        fillLineWithTranslation lines idx avail ec = ([lget lines idx], avail)) ∧
    ((∀ j, j < avail.length → avail.getD j none = none) →
        fillLineWithTranslation lines idx avail ec = ([lget lines idx], avail)) := by
  refine ⟨?_, ?_, ?_, ?_⟩
  · intro k l hk hget hcmd hmin
    simp only [fillLineWithTranslation, findFilledLineIndex, hc]
    rw [findFilledMatchAux_some hk hget hcmd hmin]
    simp [← List.getD_eq_getElem?_getD, hget]
  · intro hnom hnew k l hk hget hmin
    simp only [fillLineWithTranslation, findFilledLineIndex, hc]
    rw [findFilledMatchAux_none hnom]
    simp only [if_neg hnew]
    rw [findFirstAvailAux_some hk hget hmin]
    simp [← List.getD_eq_getElem?_getD, hget]
  · intro hnom hnew
    simp only [fillLineWithTranslation, findFilledLineIndex, hc]
    rw [findFilledMatchAux_none hnom]
    simp [if_pos hnew]
  · intro hall
    have hnom : ∀ j l', j < avail.length → avail.getD j none = some l' →
        filledCommand l' ≠ cmd := by
      intro j l' hj hg
      rw [hall j hj] at hg
      exact absurd hg (by simp)
    simp only [fillLineWithTranslation, findFilledLineIndex, hc]
    rw [findFilledMatchAux_none hnom]
    split
    · rfl
    · rename_i k heq
      rw [findFirstAvailAux_none hall] at heq
      simp at heq

/-- Witness for C4 (exact match at index 1, entry consumed). -/
theorem c4_witness :
    fillLineWithTranslation ["    a \"\"".data] 0 [none, some "a \"x\"".data] extractCommand =
      (["    ".data ++ "a \"x\"".data], [none, some "a \"x\"".data].set 1 none) := by
  refine (c4_fill_policy ["    a \"\"".data] 0 [none, some "a \"x\"".data] extractCommand
      "a".data (by decide)).1 1 "a \"x\"".data (by decide) (by decide) (by decide) ?_
  intro j l' hj hg
  have hj0 : j = 0 := by omega
  subst hj0
  rw [List.getD_cons_zero] at hg
  exact absurd hg (by simp)

/-! ### Claim C5: recognition is hard-coded to '# game/' and 'french' -/

theorem extractGo_inert (fuel : Nat) (lines : List Line)
    (h1 : ∀ l ∈ lines, prefixL "# game/".data (trimL l) = false)
    (h2 : ∀ l ∈ lines, prefixL "translate french strings:".data (trimL l) = false) :
    ∀ i, extractGo fuel lines i = [] := by
  induction fuel with
  | zero => intro i; rfl
  | succ fuel ih =>
    intro i
    rw [extractGo]
    split
    · rename_i hi
      have hd : isDialogueStart lines i = false := by
        unfold isDialogueStart
        rw [h1 _ (lget_mem lines i hi)]
        rfl
      have hs : isStringsStart lines i = false := by
        unfold isStringsStart
        exact h2 _ (lget_mem lines i hi)
      simp only [hd, hs, Bool.false_eq_true, if_false]
      exact ih (i+1)
    · rfl

theorem fillGo_inert (fuel : Nat) (lines : List Line)
    (h1 : ∀ l ∈ lines, prefixL "# game/".data (trimL l) = false)
    (h2 : ∀ l ∈ lines, prefixL "translate french strings:".data (trimL l) = false) :
    ∀ i, fillGo fuel lines i = [] := by
  induction fuel with
  | zero => intro i; rfl
  | succ fuel ih =>
    intro i
    rw [fillGo]
    split
    · rename_i hi
      have hd : isDialogueStart lines i = false := by
        unfold isDialogueStart
        rw [h1 _ (lget_mem lines i hi)]
        rfl
      have hs : isStringsStart lines i = false := by
        unfold isStringsStart
        exact h2 _ (lget_mem lines i hi)
      simp only [hd, hs, Bool.false_eq_true, if_false]
      exact ih (i+1)
    · rfl

theorem replaceGo_inert (lines : List Line)
    (h1 : ∀ l ∈ lines, prefixL "# game/".data (trimL l) = false)
    (h2 : ∀ l ∈ lines, prefixL "translate french strings:".data (trimL l) = false) :
    ∀ fuel i avail ec, lines.length - i ≤ fuel →
      (replaceGo fuel lines i avail ec).1 = lines.drop i := by
  intro fuel
  induction fuel with
  | zero =>
    intro i avail ec hf
    rw [replaceGo, List.drop_eq_nil_of_le (by omega)]
  | succ fuel ih =>
    intro i avail ec hf
    rw [replaceGo]
    split
    · rename_i hi
      have hd : isDialogueStart lines i = false := by
        unfold isDialogueStart
        rw [h1 _ (lget_mem lines i hi)]
        rfl
      have hs : isStringsStart lines i = false := by
        unfold isStringsStart
        exact h2 _ (lget_mem lines i hi)
      simp only [hd, hs, Bool.false_eq_true, if_false]
      rw [ih (i+1) avail ec (by omega), ← drop_lget lines i hi]
    · rename_i hi
      rw [List.drop_eq_nil_of_le (by omega)]

/-- C5 (amended): block recognition is restricted to the hard-coded path
prefix and language of the source: a dialogue block needs a trimmed line
starting with `# game/` followed by a `translate french` line, and a
strings block a trimmed line starting with `translate french strings:`.
Consequently a text containing no `# game/`-prefixed line and no
`translate french strings:` header is completely inert: nothing is
extracted, no fill slot is found, and `replaceLines` returns the text
unchanged for any filled lines. -/
theorem c5_recognition_restricted (s : String) (fills : List String) (ec : String → String)
    (h1 : ∀ l ∈ splitLines s, prefixL "# game/".data (trimL l) = false)
    (h2 : ∀ l ∈ splitLines s, prefixL "translate french strings:".data (trimL l) = false) :
    extractLines s = [] ∧ findLinesToFill s = [] ∧ replaceLines s fills ec = s := by
  refine ⟨?_, ?_, ?_⟩
  · unfold extractLines
    split
    · rfl
    · simp [extractGo_inert _ _ h1 h2]
  · unfold findLinesToFill
    split
    · rfl
    · simp [fillGo_inert _ _ h1 h2]
  · unfold replaceLines
    split
    · rename_i he
      rw [he]
    · show (⟨joinLinesL (replaceGo (splitLines s).length (splitLines s) 0
          (fills.map fun t => some t.data) ec).1⟩ : String) = s
      rw [replaceGo_inert _ h1 h2 _ 0 _ _ (by omega), List.drop_zero]
      show (⟨joinLinesL (splitLinesL s.data)⟩ : String) = s
      rw [join_split]

/-- C5 counterexample: scripts differing from a recognized one only in the
path prefix (`# data/` for `# game/`) or in the language word (`german`
for `french`) are not recognized at all, refuting "recognition is not
restricted to a particular path prefix or a particular language". -/
theorem c5_counterexample :
    extractLines "# game/s.rpy:1\ntranslate french b:\n\n    # a \"Hi\"\n    a \"\"" = ["Hi"] ∧
    extractLines "# data/s.rpy:1\ntranslate french b:\n\n    # a \"Hi\"\n    a \"\"" = [] ∧
    extractLines "# game/s.rpy:1\ntranslate german b:\n\n    # a \"Hi\"\n    a \"\"" = [] := by
  refine ⟨by decide, by decide, by decide⟩

/-- Witness for C5 on a German strings block. -/
theorem c5_witness :
    extractLines "# data/x\ntranslate german strings:\nold \"A\"\nnew \"\"" = [] ∧
    findLinesToFill "# data/x\ntranslate german strings:\nold \"A\"\nnew \"\"" = [] ∧
    replaceLines "# data/x\ntranslate german strings:\nold \"A\"\nnew \"\"" ["new \"B\""]
        extractCommand =
      "# data/x\ntranslate german strings:\nold \"A\"\nnew \"\"" :=
  c5_recognition_restricted _ ["new \"B\""] extractCommand (by decide) (by decide)

/-! ### Claim C9: exit behavior of the strings-block inner loops -/

theorem stringsExtractGo_exit (fuel : Nat) (lines : List Line) :
    ∀ i, lines.length - i ≤ fuel → i ≤ lines.length →
      (stringsExtractGo fuel lines i).2 = sExit lines i := by
  induction fuel with
  | zero =>
    intro i hf hi
    have hI : i = lines.length := by omega
    subst hI
    unfold sExit
    rw [List.drop_eq_nil_of_le (le_refl _)]
    rfl
  | succ fuel ih =>
    intro i hf hi
    rw [stringsExtractGo]
    by_cases hi2 : i < lines.length
    · rw [if_pos hi2]
      by_cases hb : sBreakLine (lget lines i) = true
      · rw [if_pos hb]
        unfold sExit
        rw [drop_lget lines i hi2, sExitL, if_pos hb]
        rfl
      · rw [if_neg hb]
        dsimp only
        rw [ih (i+1) (by omega) (by omega)]
        unfold sExit
        rw [drop_lget lines i hi2, sExitL, if_neg hb]
        omega
    · rw [if_neg hi2]
      have hI : i = lines.length := by omega
      subst hI
      unfold sExit
      rw [List.drop_eq_nil_of_le (le_refl _)]
      rfl

theorem stringsFillGo_exit (fuel : Nat) (lines : List Line) :
    ∀ i, lines.length - i ≤ fuel → i ≤ lines.length →
      (stringsFillGo fuel lines i).2 = sExit lines i := by
  induction fuel with
  | zero =>
    intro i hf hi
    have hI : i = lines.length := by omega
    subst hI
    unfold sExit
    rw [List.drop_eq_nil_of_le (le_refl _)]
    rfl
  | succ fuel ih =>
    intro i hf hi
    rw [stringsFillGo]
    by_cases hi2 : i < lines.length
    · rw [if_pos hi2]
      by_cases hb : sBreakLine (lget lines i) = true
      · rw [if_pos hb]
        unfold sExit
        rw [drop_lget lines i hi2, sExitL, if_pos hb]
        rfl
      · rw [if_neg hb]
        dsimp only
        rw [ih (i+1) (by omega) (by omega)]
        unfold sExit
        rw [drop_lget lines i hi2, sExitL, if_neg hb]
        omega
    · rw [if_neg hi2]
      have hI : i = lines.length := by omega
      subst hI
      unfold sExit
      rw [List.drop_eq_nil_of_le (le_refl _)]
      rfl

/-- C9 (amended): in the strings-block inner loops of `extractLines` and
`findLinesToFill`, the only line that terminates the loop (and is left
unconsumed, for the outer loop) is one whose trimmed form starts with
`translate` and does not contain `strings:`; every other line — blank or
not, `old`-prefixed or not — is consumed and scanning continues to the end
of the file: the exit index is exactly the first terminating line at or
after the entry index. -/
theorem c9_strings_loop_exit (lines : List Line) (fuel i : Nat)
    (hf : lines.length - i ≤ fuel) (hi : i ≤ lines.length) :
    (stringsExtractGo fuel lines i).2 = sExit lines i ∧
    (stringsFillGo fuel lines i).2 = sExit lines i :=
  ⟨stringsExtractGo_exit fuel lines i hf hi, stringsFillGo_exit fuel lines i hf hi⟩

/-- Witness for C9 on a block whose second line is junk. -/
theorem c9_witness :
    (stringsExtractGo 4 (splitLines "translate french strings:\nxx\nold \"Yes\"\nnew \"\"") 1).2 =
      sExit (splitLines "translate french strings:\nxx\nold \"Yes\"\nnew \"\"") 1 ∧
    (stringsFillGo 4 (splitLines "translate french strings:\nxx\nold \"Yes\"\nnew \"\"") 1).2 =
      sExit (splitLines "translate french strings:\nxx\nold \"Yes\"\nnew \"\"") 1 :=
  c9_strings_loop_exit _ 4 1 (by decide) (by decide)

/-- C9 counterexample: the line `xx` is neither `old "`-prefixed nor blank,
yet it does not terminate the inner loop: the `old`/`new` pair after it is
still extracted, and the loop runs to the end of the file (exit index 4,
the line count). -/
theorem c9_counterexample :
    extractLines "translate french strings:\nxx\nold \"Yes\"\nnew \"\"" = ["Yes"] ∧
    findLinesToFill "translate french strings:\nxx\nold \"Yes\"\nnew \"\"" = ["new \"\""] ∧
    (stringsExtractGo 4 (splitLines "translate french strings:\nxx\nold \"Yes\"\nnew \"\"") 1).2 = 4 ∧
    trimL "xx".data ≠ [] ∧
    prefixL "old \"".data (trimL "xx".data) = false := by
  refine ⟨by decide, by decide, by decide, by decide, by decide⟩

/-! ### Claim C8: the scans terminate (fuel stability) -/

theorem pdb_exit_lb (lines : List Line) (i : Nat) :
    i + 1 ≤ (processDialogueBlock lines i).2 := by
  unfold processDialogueBlock processTwoCommentedLinesCase processSingleCommentedLineCase
  dsimp only
  repeat' split
  all_goals try dsimp only
  all_goals omega

theorem ffd_exit_lb (lines : List Line) (i : Nat) :
    i + 1 ≤ (findFillDialogue lines i).2 := by
  unfold findFillDialogue findFillTwoCommented findFillSingleCommented
  dsimp only
  repeat' split
  all_goals try dsimp only
  all_goals omega

theorem pdbReplace_exit_lb (lines : List Line) (i : Nat) (avail : List (Option Line))
    (ec : String → String) : i + 1 ≤ (pdbReplace lines i avail ec).2.1 := by
  unfold pdbReplace
  dsimp only
  repeat' split
  all_goals try dsimp only
  all_goals omega

theorem stringsExtractGo_exit_lb (fuel : Nat) (lines : List Line) :
    ∀ i, i ≤ (stringsExtractGo fuel lines i).2 := by
  induction fuel with
  | zero => intro i; exact le_refl i
  | succ fuel ih =>
    intro i
    rw [stringsExtractGo]
    split
    · split
      · exact le_refl i
      · dsimp only
        exact le_trans (by omega) (ih (i+1))
    · exact le_refl i

theorem stringsFillGo_exit_lb (fuel : Nat) (lines : List Line) :
    ∀ i, i ≤ (stringsFillGo fuel lines i).2 := by
  induction fuel with
  | zero => intro i; exact le_refl i
  | succ fuel ih =>
    intro i
    rw [stringsFillGo]
    split
    · split
      · exact le_refl i
      · dsimp only
        exact le_trans (by omega) (ih (i+1))
    · exact le_refl i

theorem stringsReplaceGo_exit_lb (fuel : Nat) (lines : List Line) :
    ∀ i avail, i ≤ (stringsReplaceGo fuel lines i avail).2.1 := by
  induction fuel with
  | zero => intro i avail; exact le_refl i
  | succ fuel ih =>
    intro i avail
    rw [stringsReplaceGo]
    split
    · split
      · split
        · dsimp only
          exact le_trans (by omega) (ih (i+2) _)
        · dsimp only
          exact le_trans (by omega) (ih (i+2) _)
      · dsimp only
        exact le_trans (by omega) (ih (i+2) _)
    · exact le_refl i

theorem stringsExtractGo_stable (lines : List Line) :
    ∀ f g i, lines.length - i ≤ f → lines.length - i ≤ g →
      stringsExtractGo f lines i = stringsExtractGo g lines i := by
  intro f
  induction f with
  | zero =>
    intro g i hf hg
    cases g with
    | zero => rfl
    | succ g =>
      show ([], i) = _
      rw [stringsExtractGo, if_neg (by omega : ¬ i < lines.length)]
  | succ f ihf =>
    intro g i hf hg
    cases g with
    | zero =>
      show _ = ([], i)
      rw [stringsExtractGo, if_neg (by omega : ¬ i < lines.length)]
    | succ g =>
      simp only [stringsExtractGo]
      by_cases hi : i < lines.length
      · rw [if_pos hi, if_pos hi]
        by_cases hb : sBreakLine (lget lines i) = true
        · rw [if_pos hb, if_pos hb]
        · rw [if_neg hb, if_neg hb]
          rw [ihf g (i+1) (by omega) (by omega)]
      · rw [if_neg hi, if_neg hi]

theorem stringsFillGo_stable (lines : List Line) :
    ∀ f g i, lines.length - i ≤ f → lines.length - i ≤ g →
      stringsFillGo f lines i = stringsFillGo g lines i := by
  intro f
  induction f with
  | zero =>
    intro g i hf hg
    cases g with
    | zero => rfl
    | succ g =>
      show ([], i) = _
      rw [stringsFillGo, if_neg (by omega : ¬ i < lines.length)]
  | succ f ihf =>
    intro g i hf hg
    cases g with
    | zero =>
      show _ = ([], i)
      rw [stringsFillGo, if_neg (by omega : ¬ i < lines.length)]
    | succ g =>
      simp only [stringsFillGo]
      by_cases hi : i < lines.length
      · rw [if_pos hi, if_pos hi]
        by_cases hb : sBreakLine (lget lines i) = true
        · rw [if_pos hb, if_pos hb]
        · rw [if_neg hb, if_neg hb]
          rw [ihf g (i+1) (by omega) (by omega)]
      · rw [if_neg hi, if_neg hi]

theorem extractGo_stable (lines : List Line) :
    ∀ f g i, lines.length - i ≤ f → lines.length - i ≤ g →
      extractGo f lines i = extractGo g lines i := by
  intro f
  induction f with
  | zero =>
    intro g i hf hg
    cases g with
    | zero => rfl
    | succ g =>
      show ([] : List Line) = _
      rw [extractGo, if_neg (by omega : ¬ i < lines.length)]
  | succ f ihf =>
    intro g i hf hg
    cases g with
    | zero =>
      show _ = ([] : List Line)
      rw [extractGo, if_neg (by omega : ¬ i < lines.length)]
    | succ g =>
      simp only [extractGo]
      by_cases hi : i < lines.length
      · rw [if_pos hi, if_pos hi]
        by_cases hd : isDialogueStart lines i = true
        · rw [if_pos hd, if_pos hd]
          have hj := pdb_exit_lb lines i
          rw [ihf g (processDialogueBlock lines i).2 (by omega) (by omega)]
        · rw [if_neg hd, if_neg hd]
          by_cases hs : isStringsStart lines i = true
          · rw [if_pos hs, if_pos hs]
            rw [stringsExtractGo_stable lines f g (i+1) (by omega) (by omega)]
            have hj := stringsExtractGo_exit_lb g lines (i+1)
            rw [ihf g (stringsExtractGo g lines (i+1)).2 (by omega) (by omega)]
          · rw [if_neg hs, if_neg hs]
            exact ihf g (i+1) (by omega) (by omega)
      · rw [if_neg hi, if_neg hi]

theorem fillGo_stable (lines : List Line) :
    ∀ f g i, lines.length - i ≤ f → lines.length - i ≤ g →
      fillGo f lines i = fillGo g lines i := by
  intro f
  induction f with
  | zero =>
    intro g i hf hg
    cases g with
    | zero => rfl
    | succ g =>
      show ([] : List Line) = _
      rw [fillGo, if_neg (by omega : ¬ i < lines.length)]
  | succ f ihf =>
    intro g i hf hg
    cases g with
    | zero =>
      show _ = ([] : List Line)
      rw [fillGo, if_neg (by omega : ¬ i < lines.length)]
    | succ g =>
      simp only [fillGo]
      by_cases hi : i < lines.length
      · rw [if_pos hi, if_pos hi]
        by_cases hd : isDialogueStart lines i = true
        · rw [if_pos hd, if_pos hd]
          have hj := ffd_exit_lb lines i
          rw [ihf g (findFillDialogue lines i).2 (by omega) (by omega)]
        · rw [if_neg hd, if_neg hd]
          by_cases hs : isStringsStart lines i = true
          · rw [if_pos hs, if_pos hs]
            rw [stringsFillGo_stable lines f g (i+1) (by omega) (by omega)]
            have hj := stringsFillGo_exit_lb g lines (i+1)
            rw [ihf g (stringsFillGo g lines (i+1)).2 (by omega) (by omega)]
          · rw [if_neg hs, if_neg hs]
            exact ihf g (i+1) (by omega) (by omega)
      · rw [if_neg hi, if_neg hi]

theorem stringsReplaceGo_stable (lines : List Line) :
    ∀ f g i avail, lines.length - i ≤ f → lines.length - i ≤ g →
      stringsReplaceGo f lines i avail = stringsReplaceGo g lines i avail := by
  intro f
  induction f with
  | zero =>
    intro g i avail hf hg
    cases g with
    | zero => rfl
    | succ g =>
      show ([], i, avail) = _
      rw [stringsReplaceGo,
        if_neg (fun hcon => (by omega : ¬ i < lines.length) hcon.1)]
  | succ f ihf =>
    intro g i avail hf hg
    cases g with
    | zero =>
      show _ = ([], i, avail)
      rw [stringsReplaceGo,
        if_neg (fun hcon => (by omega : ¬ i < lines.length) hcon.1)]
    | succ g =>
      simp only [stringsReplaceGo]
      by_cases hc : i < lines.length ∧ isOldOrBlank (lget lines i) = true
      · have hi : i < lines.length := hc.1
        rw [if_pos hc, if_pos hc]
        by_cases h2 : trimL (lget lines (i+1)) ≠ [] ∧
            isEmptyNewLine (trimL (lget lines (i+1))) = true
        · by_cases h1 : i + 1 < lines.length
          · rw [if_pos h1, if_pos h1, if_pos h2, if_pos h2]
            rw [ihf g (i+2) _ (by omega) (by omega)]
          · rw [if_neg h1, if_neg h1]
            rw [ihf g (i+2) _ (by omega) (by omega)]
        · by_cases h1 : i + 1 < lines.length
          · rw [if_pos h1, if_pos h1, if_neg h2, if_neg h2]
            rw [ihf g (i+2) _ (by omega) (by omega)]
          · rw [if_neg h1, if_neg h1]
            rw [ihf g (i+2) _ (by omega) (by omega)]
      · rw [if_neg hc, if_neg hc]

theorem replaceGo_stable (lines : List Line) (ec : String → String) :
    ∀ f g i avail, lines.length - i ≤ f → lines.length - i ≤ g →
      replaceGo f lines i avail ec = replaceGo g lines i avail ec := by
  intro f
  induction f with
  | zero =>
    intro g i avail hf hg
    cases g with
    | zero => rfl
    | succ g =>
      show ([], avail) = _
      rw [replaceGo, if_neg (by omega : ¬ i < lines.length)]
  | succ f ihf =>
    intro g i avail hf hg
    cases g with
    | zero =>
      show _ = ([], avail)
      rw [replaceGo, if_neg (by omega : ¬ i < lines.length)]
    | succ g =>
      simp only [replaceGo]
      by_cases hi : i < lines.length
      · rw [if_pos hi, if_pos hi]
        by_cases hd : isDialogueStart lines i = true
        · rw [if_pos hd, if_pos hd]
          have hj := pdbReplace_exit_lb lines i avail ec
          rw [ihf g (pdbReplace lines i avail ec).2.1 _ (by omega) (by omega)]
        · rw [if_neg hd, if_neg hd]
          by_cases hs : isStringsStart lines i = true
          · rw [if_pos hs, if_pos hs]
            rw [stringsReplaceGo_stable lines f g (i+1) avail (by omega) (by omega)]
            have hj := stringsReplaceGo_exit_lb g lines (i+1) avail
            rw [ihf g (stringsReplaceGo g lines (i+1) avail).2.1 _ (by omega) (by omega)]
          · rw [if_neg hs, if_neg hs]
            rw [ihf g (i+1) avail (by omega) (by omega)]
      · rw [if_neg hi, if_neg hi]

/-- C8: for every input string — malformed and truncated block structures
included — the three scans terminate and return a well-formed value: the
embedded loop recursions are fuel-stable (any fuel bound at least the line
count yields exactly the top-level result, i.e. the while loops of the
source always exit), and a truncated dialogue block (a header with no
trailing slot lines) simply yields no extracted-text/fill-descriptor pair. -/
theorem c8_termination_and_truncation (s : String) (fills : List String) (fuel : Nat)
    (hf : (splitLines s).length ≤ fuel) :
    (extractGo fuel (splitLines s) 0).map (fun l => (⟨l⟩ : String)) = extractLines s ∧
    (fillGo fuel (splitLines s) 0).map (fun l => (⟨l⟩ : String)) = findLinesToFill s ∧
    (⟨joinLinesL (replaceGo fuel (splitLines s) 0 (fills.map fun t => some t.data)
        extractCommand).1⟩ : String) = replaceLines s fills extractCommand ∧
    extractLines "# game/a\ntranslate french b:" = [] ∧
    findLinesToFill "# game/a\ntranslate french b:" = [] := by
  refine ⟨?_, ?_, ?_, by decide, by decide⟩
  · rw [extractGo_stable (splitLines s) fuel (splitLines s).length 0 (by omega) (by omega)]
    unfold extractLines
    split
    · rename_i he
      subst he
      decide
    · rfl
  · rw [fillGo_stable (splitLines s) fuel (splitLines s).length 0 (by omega) (by omega)]
    unfold findLinesToFill
    split
    · rename_i he
      subst he
      decide
    · rfl
  · rw [replaceGo_stable (splitLines s) extractCommand fuel (splitLines s).length 0 _
      (by omega) (by omega)]
    unfold replaceLines
    split
    · rename_i he
      subst he
      rfl
    · rfl

/-- Witness for C8 at the strings block of C7 with fuel 5. -/
theorem c8_witness :
    (extractGo 5 (splitLines "translate french strings:\n    old \"Yes\"\n    new \"\"") 0).map
        (fun l => (⟨l⟩ : String)) =
      extractLines "translate french strings:\n    old \"Yes\"\n    new \"\"" ∧
    (fillGo 5 (splitLines "translate french strings:\n    old \"Yes\"\n    new \"\"") 0).map
        (fun l => (⟨l⟩ : String)) =
      findLinesToFill "translate french strings:\n    old \"Yes\"\n    new \"\"" ∧
    (⟨joinLinesL (replaceGo 5 (splitLines "translate french strings:\n    old \"Yes\"\n    new \"\"")
        0 (([] : List String).map fun t => some t.data) extractCommand).1⟩ : String) =
      replaceLines "translate french strings:\n    old \"Yes\"\n    new \"\"" [] extractCommand ∧
    extractLines "# game/a\ntranslate french b:" = [] ∧
    findLinesToFill "# game/a\ntranslate french b:" = [] :=
  c8_termination_and_truncation "translate french strings:\n    old \"Yes\"\n    new \"\"" [] 5
    (by decide)

/-! ### Claim C2: replaceLines with no fills is the identity on complete scripts -/

theorem lineAt_any_lt {lines : List Line} {k : Nat} {p : Line → Bool}
    (h : ((lineAt lines k).map trimL).any p = true) : k < lines.length := by
  by_contra hk
  rw [lineAt_eq_none lines k (by omega)] at h
  simp at h

theorem fill_nil (lines : List Line) (idx : Nat) (ec : String → String) :
    fillLineWithTranslation lines idx [] ec = ([lget lines idx], []) := by
  simp [fillLineWithTranslation, findFilledLineIndex, findFilledMatchAux, findFirstAvailAux]

theorem fillNew_nil (lines : List Line) (idx : Nat) :
    fillNewLineWithTranslation lines idx [] = ([lget lines idx], []) := by
  simp [fillNewLineWithTranslation, findFilledLineIndex, findFilledMatchAux, findFirstAvailAux]

theorem dialogueExitAt_lb (lines : List Line) (i : Nat) : i + 1 ≤ dialogueExitAt lines i := by
  unfold dialogueExitAt
  repeat' split
  all_goals omega

theorem pdbReplace_exit (lines : List Line) (i : Nat) (avail : List (Option Line))
    (ec : String → String) : (pdbReplace lines i avail ec).2.1 = dialogueExitAt lines i := by
  unfold pdbReplace dialogueExitAt
  dsimp only
  repeat' split
  all_goals rfl

theorem stringsReplaceGo_id (lines : List Line) :
    ∀ fuel i, lines.length - i ≤ fuel →
      (stringsReplaceGo fuel lines i []).1 ++
          lines.drop (stringsReplaceGo fuel lines i []).2.1 = lines.drop i ∧
        (stringsReplaceGo fuel lines i []).2.2 = [] := by
  intro fuel
  induction fuel with
  | zero =>
    intro i hf
    exact ⟨by simp [stringsReplaceGo], rfl⟩
  | succ fuel ih =>
    intro i hf
    simp only [stringsReplaceGo]
    by_cases hc : i < lines.length ∧ isOldOrBlank (lget lines i) = true
    · have hi : i < lines.length := hc.1
      rw [if_pos hc]
      by_cases h2 : trimL (lget lines (i+1)) ≠ [] ∧
          isEmptyNewLine (trimL (lget lines (i+1))) = true
      · by_cases h1 : i + 1 < lines.length
        · rw [if_pos h1, if_pos h2, fillNew_nil]
          dsimp only
          obtain ⟨ihA, ihB⟩ := ih (i+2) (by omega)
          refine ⟨?_, ihB⟩
          rw [drop_lget lines i hi, drop_lget lines (i+1) h1]
          simp only [List.cons_append, List.singleton_append, List.nil_append,
            List.append_assoc]
          rw [ihA]
        · rw [if_neg h1]
          dsimp only
          obtain ⟨ihA, ihB⟩ := ih (i+2) (by omega)
          have h0 : lines.drop (i+2) = [] := List.drop_eq_nil_of_le (by omega)
          rw [h0] at ihA
          obtain ⟨e1, e2⟩ := List.append_eq_nil.mp ihA
          refine ⟨?_, ihB⟩
          rw [e1, e2, drop_lget lines i hi,
            List.drop_eq_nil_of_le (by omega : lines.length ≤ i + 1)]
          simp
      · by_cases h1 : i + 1 < lines.length
        · rw [if_pos h1, if_neg h2]
          dsimp only
          obtain ⟨ihA, ihB⟩ := ih (i+2) (by omega)
          refine ⟨?_, ihB⟩
          rw [drop_lget lines i hi, drop_lget lines (i+1) h1]
          simp only [List.cons_append, List.singleton_append, List.nil_append,
            List.append_assoc]
          rw [ihA]
        · rw [if_neg h1]
          dsimp only
          obtain ⟨ihA, ihB⟩ := ih (i+2) (by omega)
          have h0 : lines.drop (i+2) = [] := List.drop_eq_nil_of_le (by omega)
          rw [h0] at ihA
          obtain ⟨e1, e2⟩ := List.append_eq_nil.mp ihA
          refine ⟨?_, ihB⟩
          rw [e1, e2, drop_lget lines i hi,
            List.drop_eq_nil_of_le (by omega : lines.length ≤ i + 1)]
          simp
    · rw [if_neg hc]
      exact ⟨by simp, rfl⟩

theorem pdbReplace_id (lines : List Line) (i : Nat) (ec : String → String)
    (hok : dialogueOkAt lines i = true) :
    (pdbReplace lines i [] ec).1 ++ lines.drop (pdbReplace lines i [] ec).2.1 =
        lines.drop i ∧
      (pdbReplace lines i [] ec).2.2 = [] := by
  unfold dialogueOkAt at hok
  unfold pdbReplace
  dsimp only
  by_cases h12 : (((lineAt lines (i+3)).map trimL).any (prefixL "#".data) &&
      ((lineAt lines (i+4)).map trimL).any (prefixL "#".data)) = true
  · rw [if_pos h12] at hok ⊢
    simp only [Bool.and_eq_true, decide_eq_true_eq, Bool.or_eq_true] at hok
    obtain ⟨h5, hq6⟩ := hok
    rw [if_pos h5]
    by_cases hq : (trimL (lget lines (i+5))).contains '"' = true
    · rw [if_pos hq]
      by_cases hqq : containsSub "\"\"".data (trimL (lget lines (i+5))) = true
      · rw [if_pos hqq, fill_nil]
        dsimp only
        refine ⟨?_, rfl⟩
        rw [drop_lget lines i (by omega), drop_lget lines (i+1) (by omega),
          drop_lget lines (i+2) (by omega), drop_lget lines (i+3) (by omega),
          drop_lget lines (i+4) (by omega), drop_lget lines (i+5) (by omega)]
        simp
      · rw [if_neg hqq]
        dsimp only
        refine ⟨?_, rfl⟩
        rw [drop_lget lines i (by omega), drop_lget lines (i+1) (by omega),
          drop_lget lines (i+2) (by omega), drop_lget lines (i+3) (by omega),
          drop_lget lines (i+4) (by omega), drop_lget lines (i+5) (by omega)]
        simp
    · rw [if_neg hq]
      have h6 : i + 6 < lines.length := by
        rcases hq6 with hq6 | hq6
        · exact absurd hq6 hq
        · exact hq6
      rw [if_pos h6]
      by_cases hqq : containsSub "\"\"".data (trimL (lget lines (i+6))) = true
      · rw [if_pos hqq, fill_nil]
        dsimp only
        refine ⟨?_, rfl⟩
        rw [drop_lget lines i (by omega), drop_lget lines (i+1) (by omega),
          drop_lget lines (i+2) (by omega), drop_lget lines (i+3) (by omega),
          drop_lget lines (i+4) (by omega), drop_lget lines (i+5) (by omega),
          drop_lget lines (i+6) (by omega)]
        simp
      · rw [if_neg hqq]
        dsimp only
        refine ⟨?_, rfl⟩
        rw [drop_lget lines i (by omega), drop_lget lines (i+1) (by omega),
          drop_lget lines (i+2) (by omega), drop_lget lines (i+3) (by omega),
          drop_lget lines (i+4) (by omega), drop_lget lines (i+5) (by omega),
          drop_lget lines (i+6) (by omega)]
        simp
  · rw [if_neg h12] at hok ⊢
    by_cases h1 : (((lineAt lines (i+3)).map trimL).any (prefixL "#".data)) = true
    · rw [if_pos h1] at hok ⊢
      simp only [decide_eq_true_eq] at hok
      rw [if_pos hok]
      by_cases hqq : containsSub "\"\"".data (trimL (lget lines (i+4))) = true
      · rw [if_pos hqq, fill_nil]
        dsimp only
        refine ⟨?_, rfl⟩
        rw [drop_lget lines i (by omega), drop_lget lines (i+1) (by omega),
          drop_lget lines (i+2) (by omega), drop_lget lines (i+3) (by omega),
          drop_lget lines (i+4) (by omega)]
        simp
      · rw [if_neg hqq]
        dsimp only
        refine ⟨?_, rfl⟩
        rw [drop_lget lines i (by omega), drop_lget lines (i+1) (by omega),
          drop_lget lines (i+2) (by omega), drop_lget lines (i+3) (by omega),
          drop_lget lines (i+4) (by omega)]
        simp
    · rw [if_neg h1] at hok ⊢
      simp only [Bool.and_eq_true, decide_eq_true_eq] at hok
      obtain ⟨⟨h4, h3ne⟩, h4ne⟩ := hok
      rw [lineAt_eq_some lines (i+3) (by omega), lineAt_eq_some lines (i+4) (by omega)]
      unfold truthyPush
      dsimp only
      rw [if_neg h3ne, if_neg h4ne]
      refine ⟨?_, rfl⟩
      rw [drop_lget lines i (by omega), drop_lget lines (i+1) (by omega),
        drop_lget lines (i+2) (by omega), drop_lget lines (i+3) (by omega),
        drop_lget lines (i+4) (by omega)]
      simp

theorem replaceGo_id (lines : List Line) (ec : String → String) :
    ∀ fuel i, lines.length - i ≤ fuel → replaceOk fuel lines i = true →
      (replaceGo fuel lines i [] ec).1 = lines.drop i ∧
      (replaceGo fuel lines i [] ec).2 = [] := by
  intro fuel
  induction fuel with
  | zero =>
    intro i hf hok
    refine ⟨?_, rfl⟩
    show ([] : List Line) = _
    rw [List.drop_eq_nil_of_le (by omega)]
  | succ fuel ih =>
    intro i hf hok
    rw [replaceOk] at hok
    simp only [replaceGo]
    by_cases hi : i < lines.length
    · rw [if_pos hi] at hok ⊢
      by_cases hd : isDialogueStart lines i = true
      · rw [if_pos hd] at hok ⊢
        rw [Bool.and_eq_true] at hok
        obtain ⟨hok1, hok2⟩ := hok
        obtain ⟨hA, hB⟩ := pdbReplace_id lines i ec hok1
        have hexit := pdbReplace_exit lines i [] ec
        have hlb := dialogueExitAt_lb lines i
        rw [hB, hexit]
        obtain ⟨ih1, ih2⟩ := ih (dialogueExitAt lines i) (by omega) hok2
        rw [ih1]
        refine ⟨?_, ih2⟩
        rw [← hexit]
        exact hA
      · rw [if_neg hd] at hok ⊢
        by_cases hs : isStringsStart lines i = true
        · rw [if_pos hs] at hok ⊢
          obtain ⟨sA, sB⟩ := stringsReplaceGo_id lines fuel (i+1) (by omega)
          have slb := stringsReplaceGo_exit_lb fuel lines (i+1) []
          rw [sB]
          obtain ⟨ih1, ih2⟩ := ih ((stringsReplaceGo fuel lines (i+1) []).2.1)
            (by omega) hok
          rw [ih1]
          refine ⟨?_, ih2⟩
          rw [drop_lget lines i hi, ← sA]
          rfl
        · rw [if_neg hs] at hok ⊢
          obtain ⟨ih1, ih2⟩ := ih (i+1) (by omega) hok
          rw [ih1]
          exact ⟨(drop_lget lines i hi).symm, ih2⟩
    · rw [if_neg hi]
      refine ⟨?_, rfl⟩
      show ([] : List Line) = _
      rw [List.drop_eq_nil_of_le (by omega)]

/-- C2 (amended): `replaceLines(s, [], extractCommand)` returns `s`
byte-identically — empty slots included, since with no fills every slot
keeps its original line — for every script whose recognized dialogue blocks
are structurally complete (`replaceOkTop`): the trailing lines each block
consumes exist and, in the unrecognized-structure branch, are non-empty.
For a truncated block the rewriter pads the output with empty lines or
drops empty lines, so the full fixed point can fail (see the
counterexample). -/
theorem c2_replace_fixed_point (s : String) (hok : replaceOkTop s = true) :
    replaceLines s [] extractCommand = s := by
  unfold replaceLines
  split
  · rename_i he
    rw [he]
  · show (⟨joinLinesL (replaceGo (splitLines s).length (splitLines s) 0 []
        extractCommand).1⟩ : String) = s
    obtain ⟨h1, -⟩ := replaceGo_id (splitLines s) extractCommand (splitLines s).length 0
      (by omega) hok
    rw [h1, List.drop_zero]
    show (⟨joinLinesL (splitLinesL s.data)⟩ : String) = s
    rw [join_split]

/-- C2 counterexample: a truncated dialogue block (header and `translate`
line with nothing after them) contains no empty slot, yet
`replaceLines(s, [], extractCommand)` appends an empty line, so the result
is not `s`. -/
theorem c2_counterexample :
    replaceLines "# game/a\ntranslate french b:" [] extractCommand =
      "# game/a\ntranslate french b:\n" ∧
    replaceLines "# game/a\ntranslate french b:" [] extractCommand ≠
      "# game/a\ntranslate french b:" := by
  refine ⟨by decide, by decide⟩

/-- Witness for C2 on the complete dialogue script of C3. -/
theorem c2_witness :
    replaceLines
        "# game/script.rpy:10\ntranslate french block_1:\n\n    # sh_i neutral \"Hello\"\n    sh_i neutral \"\""
        [] extractCommand =
      "# game/script.rpy:10\ntranslate french block_1:\n\n    # sh_i neutral \"Hello\"\n    sh_i neutral \"\"" :=
  c2_replace_fixed_point _ (by decide)
